import Mathlib

/-!
Verification of the loan-calculator engine (src/script.js) against its
natural-language specification.

The numeric core of the repository is embedded shallowly over the exact
rationals `ℚ`: every JavaScript number computation is translated as exact
rational arithmetic.  Month counts, which the source derives as
`years * 12` and then uses as (integer) loop bounds and exponents, are
modelled as natural numbers.
-/

namespace LoanCalc

/-- Embedding of `calculateEMI` (src/script.js lines 8-24).
The source receives `years` and computes `numberOfMonths = years * 12`;
here the month count `numberOfMonths` is the parameter directly (a natural
number, as the source always uses it as an integral exponent), so the
source guard `years <= 0` becomes `numberOfMonths = 0`.  The source's
`isFinite` guard only protects against floating-point overflow and has no
counterpart in exact rational arithmetic. -/
def calculateEMI (principal annualRate : ℚ) (numberOfMonths : ℕ) : ℚ :=
  if principal ≤ 0 ∨ annualRate < 0 ∨ numberOfMonths = 0 then 0
  else
    let monthlyRate := annualRate / 100 / 12
    if monthlyRate = 0 then principal / numberOfMonths
    else
      principal * monthlyRate * (1 + monthlyRate) ^ numberOfMonths /
        ((1 + monthlyRate) ^ numberOfMonths - 1)

/-- Embedding of `calculateTotalInterest` (src/script.js lines 29-31):
`(emi * years * 12) - principal`. -/
def calculateTotalInterest (principal emi years : ℚ) : ℚ :=
  emi * years * 12 - principal

/-- Embedding of `calculateSIPReturns` (src/script.js lines 671-682). -/
def calculateSIPReturns (monthlyAmount annualRate : ℚ) (months : ℕ) : ℚ :=
  let monthlyRate := annualRate / 100 / 12
  if monthlyRate = 0 then monthlyAmount * months
  else
    monthlyAmount * ((((1 + monthlyRate) ^ months - 1) / monthlyRate) * (1 + monthlyRate))

/-- Result type of `calculateMonthsToClose`: the source returns either a
numeric month count or the JavaScript `Infinity` sentinel (`unbounded`). -/
inductive PayoffResult where
  | months (n : ℕ)
  | unbounded
  deriving DecidableEq

/-- The `while (remaining > 0 && months < 600)` loop of
`calculateMonthsToClose` (src/script.js lines 85-95).  Each iteration
adds one month of interest, subtracts the payment, and increments the
month counter; the loop body returns early as soon as the balance drops
to (or below) zero. -/
def monthsLoop (monthlyRate emi : ℚ) (remaining : ℚ) (months : ℕ) : ℕ :=
  if h : 0 < remaining ∧ months < 600 then
    let remaining2 := remaining + remaining * monthlyRate - emi
    if remaining2 ≤ 0 then months + 1
    else monthsLoop monthlyRate emi remaining2 (months + 1)
  else months
termination_by 600 - months
decreasing_by
  omega

/-- Embedding of `calculateMonthsToClose` (src/script.js lines 69-96). -/
def calculateMonthsToClose (principal monthlyRate emi : ℚ) : PayoffResult :=
  if emi ≤ 0 ∨ principal ≤ 0 then .months 0
  else if monthlyRate = 0 then .months ⌈principal / emi⌉₊
  else if emi ≤ principal * monthlyRate then .unbounded
  else .months (monthsLoop monthlyRate emi principal 0)

/-- One row of the amortization table built by `generateReportTable`;
`remainingPrincipal` is the post-payment balance displayed in the row. -/
structure AmortRow where
  payment : ℚ
  interestPayment : ℚ
  principalPayment : ℚ
  remainingPrincipal : ℚ
  deriving DecidableEq

/-- The `for (month = 1; month <= totalMonths; month++)` body of
`generateReportTable` (src/script.js lines 469-515), recursing on the
number of months still to emit (`k = 0` marks the final month, where the
source forces `principalPayment = remainingPrincipal`). -/
def genRows (emi monthlyRate : ℚ) : ℕ → ℚ → List AmortRow
  | 0, _ => []
  | k + 1, remaining =>
    let interestPayment := remaining * monthlyRate
    let principalPayment := if k = 0 then remaining else emi - interestPayment
    let remaining2 := max 0 (remaining - principalPayment)
    ⟨emi, interestPayment, principalPayment, remaining2⟩ :: genRows emi monthlyRate k remaining2

/-- Embedding of `generateReportTable` (src/script.js lines 458-525),
restricted to the amortization rows it produces (the HTML/chart output is
presentation glue). -/
def generateReportTable (principal emi monthlyRate : ℚ) (totalMonths : ℕ) : List AmortRow :=
  genRows emi monthlyRate totalMonths principal

/-- The monthly-rate conversion `annualRate / 100 / 12` used throughout
src/script.js (lines 13, 259, 430, 642, 672). -/
def monthlyRateOf (annualRate : ℚ) : ℚ := annualRate / 100 / 12

/-- The (possibly fractional) month count the EMI solver actually uses:
`calculateTab1` (src/script.js line 120) forms `totalYears = years + months/12`
and `calculateEMI` (line 14) multiplies it by 12. -/
def emiMonthCount (years months : ℚ) : ℚ := (years + months / 12) * 12

/-- Total interest of one comparison candidate in `calculateTab1`
(src/script.js lines 157-158): the candidate duration `d` is in years, so
the EMI is solved over `12 * d` months. -/
def durationInterest (principal annualRate : ℚ) (d : ℕ) : ℚ :=
  calculateTotalInterest principal (calculateEMI principal annualRate (12 * d)) d

/-- The best-option selection fold of `calculateTab1` (src/script.js
lines 151-193): candidates are processed in list order, skipped unless
`duration <= totalYears`, and the running best is replaced exactly when the
candidate's total interest is strictly below the running minimum
(`minInterest` starts at `Infinity`, so the first kept candidate always
becomes the best; this is the `none` accumulator case). -/
def bestFold (principal annualRate totalYears : ℚ) :
    List ℕ → Option (ℕ × ℚ) → Option (ℕ × ℚ)
  | [], best => best
  | d :: rest, best =>
    if (d : ℚ) ≤ totalYears then
      bestFold principal annualRate totalYears rest
        (match best with
          | none => some (d, durationInterest principal annualRate d)
          | some (d₀, minInterest) =>
            if durationInterest principal annualRate d < minInterest then
              some (d, durationInterest principal annualRate d)
            else some (d₀, minInterest))
    else bestFold principal annualRate totalYears rest best

/-- The best option computed by `calculateTab1` over a candidate list of
whole-year durations (`bestOption = null`, `minInterest = Infinity` at
src/script.js lines 152-153). -/
def bestOption (principal annualRate totalYears : ℚ) (ds : List ℕ) : Option (ℕ × ℚ) :=
  bestFold principal annualRate totalYears ds none

/-! ## Helper lemmas -/

lemma genRows_length (emi r : ℚ) : ∀ (k : ℕ) (b : ℚ), (genRows emi r k b).length = k := by
  intro k
  induction k with
  | zero => intro b; simp [genRows]
  | succ k ih => intro b; simp [genRows, ih]

lemma monthsToClose_rate_zero (P emi : ℚ) (hP : 0 < P) (he : 0 < emi) :
    calculateMonthsToClose P 0 emi = PayoffResult.months ⌈P / emi⌉₊ := by
  unfold calculateMonthsToClose
  rw [if_neg (by push_neg; exact ⟨he, hP⟩), if_pos rfl]

/-! ## Claim theorems -/

/-- C2: for principal > 0, monthlyRate ≥ 0, termMonths > 0, the amortization
simulator produces exactly termMonths rows (the source loop has no early
exit, so the row count is always exactly the scheduled term). -/
theorem reportTable_row_count (P emi r : ℚ) (n : ℕ)
    (hP : 0 < P) (hr : 0 ≤ r) (hn : 0 < n) :
    (generateReportTable P emi r n).length = n :=
  genRows_length emi r n P

theorem reportTable_row_count_witness :
    (0:ℚ) < 100 ∧ (0:ℚ) ≤ 1/12 ∧ 0 < 3 ∧
      (generateReportTable 100 10 (1/12) 3).length = 3 :=
  ⟨by norm_num, by norm_num, by norm_num,
    reportTable_row_count 100 10 (1/12) 3 (by norm_num) (by norm_num) (by norm_num)⟩

/-- C4: for principal > 0, monthlyRate > 0 and emi > 0, the payoff solver
returns the UNBOUNDED sentinel exactly when emi ≤ principal × monthlyRate;
the sentinel is a distinct constructor, never a numeric month count. -/
theorem monthsToClose_unbounded_iff (P r emi : ℚ)
    (hP : 0 < P) (hr : 0 < r) (he : 0 < emi) :
    calculateMonthsToClose P r emi = PayoffResult.unbounded ↔ emi ≤ P * r := by
  unfold calculateMonthsToClose
  rw [if_neg (by push_neg; exact ⟨he, hP⟩), if_neg hr.ne']
  split_ifs with h
  · simp [h]
  · simp [h]

theorem monthsToClose_unbounded_iff_witness :
    (0:ℚ) < 1 ∧ (1:ℚ) ≤ 1 * 1 ∧ calculateMonthsToClose 1 1 1 = PayoffResult.unbounded :=
  ⟨by norm_num, by norm_num,
    (monthsToClose_unbounded_iff 1 1 1 (by norm_num) (by norm_num) (by norm_num)).mpr
      (by norm_num)⟩

/-- C9: for monthlyContribution > 0, months > 0 and annualRatePercent ≥ 0,
the SIP projector returns a future value at least the total amount
contributed (monthlyContribution × months). -/
theorem sip_future_value_ge_invested (amt a : ℚ) (m : ℕ)
    (hamt : 0 < amt) (ha : 0 ≤ a) (hm : 0 < m) :
    amt * m ≤ calculateSIPReturns amt a m := by
  unfold calculateSIPReturns
  by_cases h : a / 100 / 12 = 0
  · simp [h]
  · simp only [h, if_false]
    set r : ℚ := a / 100 / 12 with hrdef
    have hr : 0 < r := lt_of_le_of_ne (by positivity) (Ne.symm h)
    have hbern : 1 + (m:ℚ) * r ≤ (1 + r) ^ m := one_add_mul_le_pow (by linarith) m
    have h1 : (m:ℚ) ≤ ((1 + r) ^ m - 1) / r := by
      rw [le_div_iff hr]; linarith
    have h2 : (m:ℚ) ≤ ((1 + r) ^ m - 1) / r * (1 + r) := by
      have hm0 : (0:ℚ) ≤ m := by positivity
      nlinarith
    exact mul_le_mul_of_nonneg_left h2 hamt.le

theorem sip_future_value_ge_invested_witness :
    (0:ℚ) < 1 ∧ (0:ℚ) ≤ 0 ∧ 0 < 1 ∧ (1:ℚ) * (1:ℕ) ≤ calculateSIPReturns 1 0 1 :=
  ⟨by norm_num, le_refl 0, by norm_num,
    sip_future_value_ge_invested 1 0 1 (by norm_num) (by norm_num) (by norm_num)⟩

/-- C10 (implicit): with monthlyRate = 0, principal > 0, emi > 0 the payoff
solver returns ceil(principal / emi), and the 600-month cap does not apply
to this branch: for principal = 1000, emi = 1 the returned count is 1000,
which exceeds 600. -/
theorem monthsToClose_zero_rate_ceil :
    (∀ P emi : ℚ, 0 < P → 0 < emi →
      calculateMonthsToClose P 0 emi = PayoffResult.months ⌈P / emi⌉₊) ∧
    calculateMonthsToClose 1000 0 1 = PayoffResult.months 1000 ∧ 600 < 1000 := by
  refine ⟨fun P emi hP he => monthsToClose_rate_zero P emi hP he, ?_, by norm_num⟩
  rw [monthsToClose_rate_zero 1000 1 (by norm_num) (by norm_num)]
  norm_num

theorem monthsToClose_zero_rate_ceil_witness :
    calculateMonthsToClose 1000 0 1 = PayoffResult.months 1000 :=
  monthsToClose_zero_rate_ceil.2.1

/-- C6 counterexample: the claim quantifies over every years ≥ 0 and
months ≥ 0, but the EMI path (`calculateTab1` → `calculateEMI`) never
rounds the month count: for years = 3/5, months = 0 the solver receives
36/5 = 7.2 months, which differs from the rounded value 7. -/
theorem rate_period_converter_counterexample :
    (0:ℚ) ≤ 3/5 ∧ (0:ℚ) ≤ 0 ∧
      emiMonthCount (3/5) 0 ≠ ((round (emiMonthCount (3/5) 0) : ℤ) : ℚ) := by
  refine ⟨by norm_num, le_refl 0, ?_⟩
  have h : emiMonthCount (3/5) 0 = 36/5 := by unfold emiMonthCount; norm_num
  rw [h]
  have h7 : round ((36:ℚ)/5) = 7 := by norm_num [round_eq]
  rw [h7]
  norm_num

/-- C6 amended: for integer (natural-number) years and months — the only
inputs for which the spec's rounding description is meaningful — the
monthly rate is annualRate/1200 and the month count used by the EMI solver,
(years + months/12) × 12, equals the rounded integer value 12·years + months
exactly. -/
theorem rate_period_converter_integer (a : ℚ) (y m : ℕ) :
    monthlyRateOf a = a / 1200 ∧
    emiMonthCount (y:ℚ) (m:ℚ) = ((12 * y + m : ℕ) : ℚ) ∧
    ((round (emiMonthCount (y:ℚ) (m:ℚ)) : ℤ) : ℚ) = ((12 * y + m : ℕ) : ℚ) := by
  have hcount : emiMonthCount (y:ℚ) (m:ℚ) = ((12 * y + m : ℕ) : ℚ) := by
    unfold emiMonthCount; push_cast; ring
  refine ⟨?_, hcount, ?_⟩
  · unfold monthlyRateOf; rw [div_div]; norm_num
  · rw [hcount, round_natCast]
    push_cast
    ring

/-- After the payment of the final scheduled month the balance is forced
to exactly zero, whatever the payment and rate are. -/
lemma genRows_last_zero (emi r : ℚ) :
    ∀ (k : ℕ) (b : ℚ),
      ((genRows emi r (k + 1) b).getLast?).map AmortRow.remainingPrincipal = some 0 := by
  intro k
  induction k with
  | zero => intro b; simp [genRows]
  | succ k ih =>
    intro b
    have htail := ih (max 0 (b - (emi - b * r)))
    rw [show k + 1 + 1 = (k + 1) + 1 from rfl]
    simp only [genRows]
    rw [List.getLast?_cons]
    simp only [genRows] at htail ⊢
    rcases h : (genRows emi r k (max 0 (max 0 (b - (emi - b * r)) -
        (if k = 0 then max 0 (b - (emi - b * r))
          else emi - max 0 (b - (emi - b * r)) * r)))) with _ | _ <;>
      simp_all [List.getLast?_cons]

/-- While the payment covers the interest on the initial balance, every
balance in the amortization table stays within [0, its predecessor]:
the rows are non-increasing and the head does not exceed the start. -/
lemma genRows_chain (emi r : ℚ) (hr : 0 ≤ r) :
    ∀ (k : ℕ) (b : ℚ), 0 ≤ b → b * r ≤ emi →
      List.Chain' (fun x y => y.remainingPrincipal ≤ x.remainingPrincipal)
        (genRows emi r k b) ∧
      (∀ x ∈ (genRows emi r k b).head?, x.remainingPrincipal ≤ b) := by
  intro k
  induction k with
  | zero => intro b _ _; simp [genRows]
  | succ k ih =>
    intro b hb hbr
    have hpp : (0:ℚ) ≤ if k = 0 then b else emi - b * r := by
      split
      · exact hb
      · linarith
    set pp : ℚ := if k = 0 then b else emi - b * r with hppdef
    have hb2 : max 0 (b - pp) ≤ b := max_le hb (by linarith)
    have hb2' : (0:ℚ) ≤ max 0 (b - pp) := le_max_left 0 _
    have hb2r : max 0 (b - pp) * r ≤ emi := by
      calc max 0 (b - pp) * r ≤ b * r := by
            exact mul_le_mul_of_nonneg_right hb2 hr
        _ ≤ emi := hbr
    obtain ⟨hchain, hhead⟩ := ih (max 0 (b - pp)) hb2' hb2r
    constructor
    · show List.Chain' _ (⟨emi, b * r, pp, max 0 (b - pp)⟩ :: genRows emi r k (max 0 (b - pp)))
      rw [List.chain'_cons']
      exact ⟨hhead, hchain⟩
    · intro x hx
      simp only [genRows, List.head?_cons, Option.mem_def, Option.some.injEq] at hx
      rw [← hx]
      exact hb2

/-- C1 counterexample: the claim constrains only principal, rate and term,
but with payment emi = 0 and a positive rate the balance grows every
non-final month, so for principal = 100, monthlyRate = 1, term = 3 the
remainingBalance column (200, 400, 0) is not non-increasing row to row. -/
theorem amortization_monotone_counterexample :
    (0:ℚ) < 100 ∧ (0:ℚ) ≤ 1 ∧ 0 < 3 ∧
      ¬ List.Chain' (fun x y => y.remainingPrincipal ≤ x.remainingPrincipal)
          (generateReportTable 100 0 1 3) := by
  refine ⟨by norm_num, by norm_num, by norm_num, ?_⟩
  have hrows : (generateReportTable 100 0 1 3).map AmortRow.remainingPrincipal
      = [200, 400, 0] := by
    norm_num [generateReportTable, genRows]
  intro hchain
  have h12 : ((generateReportTable 100 0 1 3).map AmortRow.remainingPrincipal).Chain'
      (fun x y => y ≤ x) :=
    List.chain'_map_of_chain' AmortRow.remainingPrincipal (fun _ _ h => h) hchain
  rw [hrows] at h12
  have := h12.rel_head
  norm_num at this

/-- C1 amended: under the additional hypothesis principal × monthlyRate ≤
emi (the payment covers the first month's interest — the combination the
spec itself says callers must ensure, §4.3), the remainingBalance column is
non-increasing from each row to the next and the final row's
remainingBalance is exactly 0; the final-row part holds by the source's
last-month clamp. -/
theorem amortization_balance_monotone_final_zero (P emi r : ℚ) (n : ℕ)
    (hP : 0 < P) (hr : 0 ≤ r) (hn : 0 < n) (hemi : P * r ≤ emi) :
    List.Chain' (fun x y => y.remainingPrincipal ≤ x.remainingPrincipal)
      (generateReportTable P emi r n) ∧
    ((generateReportTable P emi r n).getLast?).map AmortRow.remainingPrincipal = some 0 := by
  obtain ⟨m, rfl⟩ : ∃ m, n = m + 1 := ⟨n - 1, by omega⟩
  exact ⟨(genRows_chain emi r hr (m + 1) P hP.le hemi).1, genRows_last_zero emi r m P⟩

theorem amortization_balance_monotone_final_zero_witness :
    (0:ℚ) < 100 ∧ (0:ℚ) ≤ 0 ∧ 0 < 2 ∧ (100:ℚ) * 0 ≤ 60 ∧
      (List.Chain' (fun x y => y.remainingPrincipal ≤ x.remainingPrincipal)
        (generateReportTable 100 60 0 2) ∧
      ((generateReportTable 100 60 0 2).getLast?).map AmortRow.remainingPrincipal = some 0) :=
  ⟨by norm_num, le_refl 0, by norm_num, by norm_num,
    amortization_balance_monotone_final_zero 100 60 0 2
      (by norm_num) (le_refl 0) (by norm_num) (by norm_num)⟩

/-- The payoff loop can only return a month count bounded by the hard cap
(or by its starting counter, when started beyond the cap). -/
lemma monthsLoop_le (r e b : ℚ) (m : ℕ) : monthsLoop r e b m ≤ max 600 m := by
  unfold monthsLoop
  split
  next h =>
    dsimp only
    split
    · exact le_max_of_le_left h.2
    · have hrec := monthsLoop_le r e (b + b * r - e) (m + 1)
      have h1 : max 600 (m + 1) = 600 := Nat.max_eq_left (by omega)
      have h2 : max 600 m = 600 := Nat.max_eq_left (by omega)
      rw [h1] at hrec
      rw [h2]
      exact hrec
  next => exact le_max_right _ _
termination_by 600 - m
decreasing_by omega

/-- C5: for monthlyRate > 0 and emi > principal × monthlyRate the payoff
solver runs its bounded iteration and returns a numeric month count that
never exceeds the 600-month hard cap. -/
theorem monthsToClose_caps_at_600 (P r emi : ℚ)
    (hP : 0 < P) (hr : 0 < r) (he : P * r < emi) :
    calculateMonthsToClose P r emi = PayoffResult.months (monthsLoop r emi P 0) ∧
    monthsLoop r emi P 0 ≤ 600 := by
  constructor
  · unfold calculateMonthsToClose
    have hemi : 0 < emi := lt_of_le_of_lt (by positivity) he
    rw [if_neg (by push_neg; exact ⟨hemi, hP⟩), if_neg hr.ne', if_neg (not_le.mpr he)]
  · simpa using monthsLoop_le r emi P 0

/-- The exact outstanding balance after k payments of the closed-form EMI
for an n-month loan: P · ((1+r)^n − (1+r)^k) / ((1+r)^n − 1). -/
def annuityBal (P r : ℚ) (n k : ℕ) : ℚ :=
  P * ((1 + r) ^ n - (1 + r) ^ k) / ((1 + r) ^ n - 1)

lemma annuityBal_step (P r : ℚ) (n : ℕ) (hr : 0 < r) (hn : n ≠ 0) (k : ℕ) :
    annuityBal P r n (k + 1)
      = annuityBal P r n k + annuityBal P r n k * r
          - P * r * (1 + r) ^ n / ((1 + r) ^ n - 1) := by
  have hA : (1:ℚ) < (1 + r) ^ n := one_lt_pow (by linarith) hn
  have hA0 : (1 + r) ^ n - 1 ≠ 0 := ne_of_gt (by linarith)
  unfold annuityBal
  rw [pow_succ]
  field_simp
  ring

lemma annuityBal_pos (P r : ℚ) (n k : ℕ) (hP : 0 < P) (hr : 0 < r) (hkn : k < n) :
    0 < annuityBal P r n k := by
  have h1 : (1 + r) ^ k < (1 + r) ^ n := pow_lt_pow_right (by linarith) hkn
  have hA : (1:ℚ) ≤ (1 + r) ^ k := one_le_pow₀ (by linarith)
  unfold annuityBal
  apply div_pos (mul_pos hP (by linarith)) (by linarith)

lemma annuityBal_last (P r : ℚ) (n : ℕ) : annuityBal P r n n = 0 := by
  unfold annuityBal
  rw [sub_self, mul_zero, zero_div]

lemma annuityBal_start (P r : ℚ) (n : ℕ) (hr : 0 < r) (hn : n ≠ 0) :
    annuityBal P r n 0 = P := by
  have hA : (1:ℚ) < (1 + r) ^ n := one_lt_pow (by linarith) hn
  have hA0 : (1 + r) ^ n - 1 ≠ 0 := by
    intro h
    nlinarith
  unfold annuityBal
  rw [pow_zero]
  field_simp

/-- If a balance trajectory g follows the loop's update rule, is positive
before month n and non-positive at month n ≤ 600, the payoff loop started
anywhere on the trajectory returns exactly n. -/
lemma monthsLoop_exact (r emi : ℚ) (g : ℕ → ℚ)
    (hstep : ∀ k, g (k + 1) = g k + g k * r - emi)
    (n : ℕ) (hn600 : n ≤ 600) (hgn : g n ≤ 0) (hpos : ∀ k, k < n → 0 < g k) :
    ∀ (d k : ℕ), k + d = n → monthsLoop r emi (g k) k = n := by
  intro d
  induction d with
  | zero =>
    intro k hk
    have hkn : k = n := by omega
    subst hkn
    unfold monthsLoop
    rw [dif_neg (fun hcon => absurd hcon.1 (not_lt.mpr hgn))]
  | succ d ih =>
    intro k hk
    have hkn : k < n := by omega
    unfold monthsLoop
    rw [dif_pos ⟨hpos k hkn, by omega⟩]
    dsimp only
    rw [← hstep k]
    by_cases hle : g (k + 1) ≤ 0
    · rw [if_pos hle]
      rcases Nat.lt_or_ge (k + 1) n with h1 | h2
      · exact absurd (hpos (k + 1) h1) (not_lt.mpr hle)
      · omega
    · rw [if_neg hle]
      exact ih (k + 1) (by omega)

/-- If a balance trajectory g follows the loop's update rule and stays
positive through month 600, the loop runs into the hard cap and returns
exactly 600. -/
lemma monthsLoop_cap (r emi : ℚ) (g : ℕ → ℚ)
    (hstep : ∀ k, g (k + 1) = g k + g k * r - emi)
    (hpos : ∀ k, k ≤ 600 → 0 < g k) :
    ∀ (d k : ℕ), k + d = 600 → monthsLoop r emi (g k) k = 600 := by
  intro d
  induction d with
  | zero =>
    intro k hk
    have hkn : k = 600 := by omega
    subst hkn
    unfold monthsLoop
    rw [dif_neg (fun hcon => absurd hcon.2 (by omega))]
  | succ d ih =>
    intro k hk
    unfold monthsLoop
    rw [dif_pos ⟨hpos k (by omega), by omega⟩]
    dsimp only
    rw [← hstep k]
    rw [if_neg (not_le.mpr (hpos (k + 1) (by omega)))]
    exact ih (k + 1) (by omega)

lemma calculateEMI_pos_rate (P a : ℚ) (n : ℕ) (hP : 0 < P) (ha : 0 < a) (hn : n ≠ 0) :
    calculateEMI P a n
      = P * (a / 100 / 12) * (1 + a / 100 / 12) ^ n / ((1 + a / 100 / 12) ^ n - 1) := by
  unfold calculateEMI
  rw [if_neg (by push_neg; exact ⟨hP, ha.le, hn⟩)]
  dsimp only
  rw [if_neg (by positivity : (0:ℚ) < a / 100 / 12).ne']

lemma calculateEMI_rate_zero (P : ℚ) (n : ℕ) (hP : 0 < P) (hn : n ≠ 0) :
    calculateEMI P 0 n = P / n := by
  unfold calculateEMI
  rw [if_neg (by push_neg; exact ⟨hP, le_refl 0, hn⟩)]
  dsimp only
  rw [if_pos (by norm_num)]

theorem monthsToClose_caps_at_600_witness :
    (0:ℚ) < 100 ∧ (0:ℚ) < 1 ∧ (100:ℚ) * 1 < 300 ∧
      (calculateMonthsToClose 100 1 300 = PayoffResult.months (monthsLoop 1 300 100 0) ∧
        monthsLoop 1 300 100 0 ≤ 600) :=
  ⟨by norm_num, by norm_num, by norm_num,
    monthsToClose_caps_at_600 100 1 300 (by norm_num) (by norm_num) (by norm_num)⟩

/-- For any term strictly beyond the 600-month cap (with a positive rate),
running the payoff solver on that term's exact EMI hits the cap and
returns 600. -/
lemma monthsToClose_hits_cap (P a : ℚ) (n : ℕ)
    (hP : 0 < P) (ha : 0 < a) (hn : 600 < n) :
    calculateMonthsToClose P (a / 100 / 12) (calculateEMI P a n)
      = PayoffResult.months 600 := by
  have hr : (0:ℚ) < a / 100 / 12 := by positivity
  set r : ℚ := a / 100 / 12 with hrdef
  have hn0 : n ≠ 0 := by omega
  have hA : (1:ℚ) < (1 + r) ^ n := one_lt_pow (by linarith) hn0
  have hA0 : (0:ℚ) < (1 + r) ^ n - 1 := by linarith
  have hemi : calculateEMI P a n = P * r * (1 + r) ^ n / ((1 + r) ^ n - 1) :=
    calculateEMI_pos_rate P a n hP ha hn0
  set emi : ℚ := P * r * (1 + r) ^ n / ((1 + r) ^ n - 1) with hemidef
  have hemipos : 0 < emi := by
    rw [hemidef]
    positivity
  have hgtPr : P * r < emi := by
    rw [hemidef, mul_div_assoc]
    have h1 : 1 < (1 + r) ^ n / ((1 + r) ^ n - 1) := (one_lt_div hA0).mpr (by linarith)
    nlinarith [mul_pos hP hr]
  rw [hemi]
  unfold calculateMonthsToClose
  rw [if_neg (by push_neg; exact ⟨hemipos, hP⟩), if_neg hr.ne',
    if_neg (not_le.mpr hgtPr)]
  congr 1
  have hstep : ∀ k, annuityBal P r n (k + 1)
      = annuityBal P r n k + annuityBal P r n k * r - emi := by
    intro k
    rw [hemidef]
    exact annuityBal_step P r n hr hn0 k
  have hpos : ∀ k, k ≤ 600 → 0 < annuityBal P r n k := fun k hk =>
    annuityBal_pos P r n k hP hr (by omega)
  have h := monthsLoop_cap r emi (annuityBal P r n) hstep hpos 600 0 (by omega)
  rw [annuityBal_start P r n hr hn0] at h
  exact h

/-- C3 counterexample: the payoff solver caps its iteration at 600 months,
so the round-trip law fails for terms beyond the cap: with principal = 1,
annual rate 100% and term = 1200 months, the solver returns 600 months,
nowhere near the 1200-month term. -/
theorem emi_payoff_roundtrip_counterexample :
    calculateMonthsToClose 1 (100 / 100 / 12) (calculateEMI 1 100 1200)
      = PayoffResult.months 600 ∧ (600:ℕ) ≠ 1200 :=
  ⟨monthsToClose_hits_cap 1 100 1200 (by norm_num) (by norm_num) (by norm_num),
    by norm_num⟩

/-- C3 amended: the round-trip law holds exactly (in exact rational
arithmetic) for every term within the solver's 600-month cap: for
principal > 0, annual rate ≥ 0 and 0 < term ≤ 600,
monthsToPayoff(principal, rate/1200, computeEMI(principal, rate, term))
returns exactly term. -/
theorem emi_payoff_roundtrip (P a : ℚ) (n : ℕ)
    (hP : 0 < P) (ha : 0 ≤ a) (hn : 0 < n) (hn600 : n ≤ 600) :
    calculateMonthsToClose P (a / 100 / 12) (calculateEMI P a n)
      = PayoffResult.months n := by
  rcases eq_or_lt_of_le ha with rfl | hapos
  · rw [calculateEMI_rate_zero P n hP hn.ne']
    have hrate : (0:ℚ) / 100 / 12 = 0 := by norm_num
    rw [hrate]
    have hn0 : (0:ℚ) < (n:ℚ) := by exact_mod_cast hn
    have hPn : (0:ℚ) < P / n := by positivity
    rw [monthsToClose_rate_zero P (P / n) hP hPn]
    congr 1
    have hq : P / (P / n) = (n:ℚ) := by
      field_simp
    rw [hq, Nat.ceil_natCast]
  · have hr : (0:ℚ) < a / 100 / 12 := by positivity
    set r : ℚ := a / 100 / 12 with hrdef
    have hA : (1:ℚ) < (1 + r) ^ n := one_lt_pow (by linarith) hn.ne'
    have hA0 : (0:ℚ) < (1 + r) ^ n - 1 := by linarith
    have hemi : calculateEMI P a n = P * r * (1 + r) ^ n / ((1 + r) ^ n - 1) :=
      calculateEMI_pos_rate P a n hP hapos hn.ne'
    set emi : ℚ := P * r * (1 + r) ^ n / ((1 + r) ^ n - 1) with hemidef
    have hemipos : 0 < emi := by
      rw [hemidef]
      positivity
    have hgtPr : P * r < emi := by
      rw [hemidef, mul_div_assoc]
      have h1 : 1 < (1 + r) ^ n / ((1 + r) ^ n - 1) := (one_lt_div hA0).mpr (by linarith)
      nlinarith [mul_pos hP hr]
    rw [hemi]
    unfold calculateMonthsToClose
    rw [if_neg (by push_neg; exact ⟨hemipos, hP⟩), if_neg hr.ne',
      if_neg (not_le.mpr hgtPr)]
    congr 1
    have hstep : ∀ k, annuityBal P r n (k + 1)
        = annuityBal P r n k + annuityBal P r n k * r - emi := by
      intro k
      rw [hemidef]
      exact annuityBal_step P r n hr hn.ne' k
    have h := monthsLoop_exact r emi (annuityBal P r n) hstep n hn600
      (le_of_eq (annuityBal_last P r n))
      (fun k hk => annuityBal_pos P r n k hP hr hk) n 0 (by omega)
    rw [annuityBal_start P r n hr hn.ne'] at h
    exact h

theorem emi_payoff_roundtrip_witness :
    (0:ℚ) < 1200 ∧ (0:ℚ) ≤ 0 ∧ 0 < 10 ∧ 10 ≤ 600 ∧
      calculateMonthsToClose 1200 (0 / 100 / 12) (calculateEMI 1200 0 10)
        = PayoffResult.months 10 :=
  ⟨by norm_num, le_refl 0, by norm_num, by norm_num,
    emi_payoff_roundtrip 1200 0 10 (by norm_num) (le_refl 0) (by norm_num) (by norm_num)⟩

/-- Strict Bernoulli inequality: for r > 0 and n ≥ 1,
1 + (n+1)·r < (1+r)^(n+1). -/
lemma bernoulli_strict (r : ℚ) (hr : 0 < r) (n : ℕ) (hn : 1 ≤ n) :
    1 + ((n:ℚ) + 1) * r < (1 + r) ^ (n + 1) := by
  have hb : 1 + (n:ℚ) * r ≤ (1 + r) ^ n := one_add_mul_le_pow (by linarith) n
  have hps : (1 + r) ^ (n + 1) = (1 + r) ^ n * (1 + r) := pow_succ _ _
  have hn1 : (1:ℚ) ≤ (n:ℚ) := by exact_mod_cast hn
  have hmul : (1 + (n:ℚ) * r) * (1 + r) ≤ (1 + r) ^ n * (1 + r) :=
    mul_le_mul_of_nonneg_right hb (by linarith)
  nlinarith [mul_pos hr hr]

/-- For a fixed principal and positive rate, a strictly longer term gives a
strictly smaller EMI. -/
lemma emi_strict_anti (P a : ℚ) (n₁ n₂ : ℕ)
    (hP : 0 < P) (ha : 0 < a) (h1 : 0 < n₁) (h12 : n₁ < n₂) :
    calculateEMI P a n₂ < calculateEMI P a n₁ := by
  have hr : (0:ℚ) < a / 100 / 12 := by positivity
  set r : ℚ := a / 100 / 12 with hrdef
  rw [calculateEMI_pos_rate P a n₁ hP ha h1.ne',
    calculateEMI_pos_rate P a n₂ hP ha (by omega : n₂ ≠ 0)]
  have hA1 : (1:ℚ) < (1 + r) ^ n₁ := one_lt_pow (by linarith) h1.ne'
  have hA2 : (1:ℚ) < (1 + r) ^ n₂ := one_lt_pow (by linarith) (by omega : n₂ ≠ 0)
  have hlt : (1 + r) ^ n₁ < (1 + r) ^ n₂ := pow_lt_pow_right (by linarith) h12
  rw [div_lt_div_iff (by linarith) (by linarith)]
  nlinarith [mul_pos (mul_pos hP hr) (by linarith : (0:ℚ) < (1 + r) ^ n₂ - (1 + r) ^ n₁)]

/-- For a fixed principal and positive rate, the total amount paid
(EMI × months) strictly increases from an n-month term to an
(n+1)-month term, for n ≥ 1. -/
lemma totalPaid_step (P a : ℚ) (hP : 0 < P) (ha : 0 < a) (n : ℕ) (hn : 1 ≤ n) :
    calculateEMI P a n * n < calculateEMI P a (n + 1) * (n + 1) := by
  have hr : (0:ℚ) < a / 100 / 12 := by positivity
  set r : ℚ := a / 100 / 12 with hrdef
  rw [calculateEMI_pos_rate P a n hP ha (by omega : n ≠ 0),
    calculateEMI_pos_rate P a (n + 1) hP ha (by omega : n + 1 ≠ 0)]
  set A : ℚ := (1 + r) ^ n with hAdef
  have hA1 : (1:ℚ) < A := one_lt_pow (by linarith) (by omega : n ≠ 0)
  have hA2 : (1 + r) ^ (n + 1) = A * (1 + r) := pow_succ _ _
  rw [hA2]
  have hd1 : (0:ℚ) < A - 1 := by linarith
  have hd2 : (0:ℚ) < A * (1 + r) - 1 := by nlinarith
  rw [div_mul_eq_mul_div, div_mul_eq_mul_div, div_lt_div_iff hd1 hd2]
  have hkey : 1 + ((n:ℚ) + 1) * r < A * (1 + r) := by
    have hb := bernoulli_strict r hr n hn
    rw [hA2] at hb
    exact hb
  have hApos : (0:ℚ) < A := by linarith
  have hfac : P * r * (A * (1 + r)) * ((n:ℚ) + 1) * (A - 1)
      - P * r * A * (n:ℚ) * (A * (1 + r) - 1)
      = P * r * A * ((1 + r) * A - (1 + ((n:ℚ) + 1) * r)) := by ring
  have hpos2 : 0 < P * r * A * ((1 + r) * A - (1 + ((n:ℚ) + 1) * r)) :=
    mul_pos (mul_pos (mul_pos hP hr) hApos) (by nlinarith)
  push_cast
  nlinarith [hfac, hpos2]

/-- Total amount paid is strictly monotone in the term, for terms ≥ 1. -/
lemma totalPaid_mono (P a : ℚ) (hP : 0 < P) (ha : 0 < a) (n₁ n₂ : ℕ)
    (h1 : 1 ≤ n₁) (h12 : n₁ < n₂) :
    calculateEMI P a n₁ * n₁ < calculateEMI P a n₂ * n₂ := by
  induction n₂ with
  | zero => omega
  | succ k ih =>
    push_cast
    rcases Nat.lt_or_ge (n₁ + 1) (k + 1) with hlt | hge
    · have hk : n₁ < k := by omega
      exact lt_trans (ih hk) (totalPaid_step P a hP ha k (by omega))
    · have hkk : k = n₁ := by omega
      rw [hkk]
      exact totalPaid_step P a hP ha n₁ h1

/-- C8: for fixed principal > 0 and annual rate > 0, for terms
0 < n₁ < n₂ (in months): the EMI at the longer term is strictly smaller,
and the total interest (EMI × months − principal, via
calculateTotalInterest with years = months/12) is strictly larger. -/
theorem emi_term_monotonicity (P a : ℚ) (n₁ n₂ : ℕ)
    (hP : 0 < P) (ha : 0 < a) (h1 : 0 < n₁) (h12 : n₁ < n₂) :
    calculateEMI P a n₂ < calculateEMI P a n₁ ∧
    calculateTotalInterest P (calculateEMI P a n₁) ((n₁:ℚ) / 12)
      < calculateTotalInterest P (calculateEMI P a n₂) ((n₂:ℚ) / 12) := by
  refine ⟨emi_strict_anti P a n₁ n₂ hP ha h1 h12, ?_⟩
  unfold calculateTotalInterest
  have h := totalPaid_mono P a hP ha n₁ n₂ h1 h12
  have e1 : calculateEMI P a n₁ * ((n₁:ℚ) / 12) * 12 = calculateEMI P a n₁ * (n₁:ℚ) := by
    ring
  have e2 : calculateEMI P a n₂ * ((n₂:ℚ) / 12) * 12 = calculateEMI P a n₂ * (n₂:ℚ) := by
    ring
  linarith

theorem emi_term_monotonicity_witness :
    (0:ℚ) < 1200 ∧ (0:ℚ) < 1200 ∧ 0 < 1 ∧ 1 < 2 ∧
      (calculateEMI 1200 1200 2 < calculateEMI 1200 1200 1 ∧
        calculateTotalInterest 1200 (calculateEMI 1200 1200 1) ((1:ℚ) / 12)
          < calculateTotalInterest 1200 (calculateEMI 1200 1200 2) ((2:ℚ) / 12)) := by
  refine ⟨by norm_num, by norm_num, by norm_num, by norm_num, ?_⟩
  have h := emi_term_monotonicity 1200 1200 1 2 (by norm_num) (by norm_num)
    (by norm_num) (by norm_num)
  exact_mod_cast h

/-- Invariant of the selection fold when started from an existing best
candidate (d₀, i₀): either no kept candidate strictly beat i₀ and the
accumulator survives, or the result is the first kept candidate achieving
the final (strictly smaller) minimum. -/
lemma bestFold_some_inv (P a ty : ℚ) :
    ∀ (ds : List ℕ) (d₀ : ℕ) (i₀ : ℚ) (d : ℕ) (i : ℚ),
      bestFold P a ty ds (some (d₀, i₀)) = some (d, i) →
      (d = d₀ ∧ i = i₀ ∧
        ∀ x ∈ ds.filter (fun x : ℕ => (x:ℚ) ≤ ty), i₀ ≤ durationInterest P a x) ∨
      (i = durationInterest P a d ∧ i < i₀ ∧
        ∃ l₁ l₂, ds.filter (fun x : ℕ => (x:ℚ) ≤ ty) = l₁ ++ d :: l₂ ∧
          (∀ x ∈ l₁, i < durationInterest P a x) ∧
          (∀ x ∈ l₂, i ≤ durationInterest P a x)) := by
  intro ds
  induction ds with
  | nil =>
    intro d₀ i₀ d i h
    simp only [bestFold, Option.some.injEq, Prod.mk.injEq] at h
    exact Or.inl ⟨h.1.symm, h.2.symm, by simp⟩
  | cons e rest ih =>
    intro d₀ i₀ d i h
    by_cases he : (e:ℚ) ≤ ty
    · simp only [bestFold, if_pos he] at h
      by_cases hlt : durationInterest P a e < i₀
      · rw [if_pos hlt] at h
        rcases ih e (durationInterest P a e) d i h with
          ⟨hd, hi, hall⟩ | ⟨hi, hii, l₁, l₂, hsplit, hl₁, hl₂⟩
        · right
          subst hd
          refine ⟨hi, by rw [hi]; exact hlt, [], rest.filter (fun x : ℕ => (x:ℚ) ≤ ty),
            by simp [List.filter_cons, he], by simp, ?_⟩
          intro x hx
          rw [hi]
          exact hall x hx
        · right
          refine ⟨hi, lt_trans hii hlt, e :: l₁, l₂,
            by simp [List.filter_cons, he, hsplit], ?_, hl₂⟩
          intro x hx
          rcases List.mem_cons.mp hx with rfl | hx1
          · exact hii
          · exact hl₁ x hx1
      · rw [if_neg hlt] at h
        rcases ih d₀ i₀ d i h with
          ⟨hd, hi, hall⟩ | ⟨hi, hii, l₁, l₂, hsplit, hl₁, hl₂⟩
        · left
          refine ⟨hd, hi, ?_⟩
          intro x hx
          have hx2 : x ∈ e :: rest.filter (fun x : ℕ => (x:ℚ) ≤ ty) := by
            simpa [List.filter_cons, he] using hx
          rcases List.mem_cons.mp hx2 with rfl | hx1
          · exact not_lt.mp hlt
          · exact hall x hx1
        · right
          refine ⟨hi, hii, e :: l₁, l₂,
            by simp [List.filter_cons, he, hsplit], ?_, hl₂⟩
          intro x hx
          rcases List.mem_cons.mp hx with rfl | hx1
          · exact lt_of_lt_of_le hii (not_lt.mp hlt)
          · exact hl₁ x hx1
    · simp only [bestFold, if_neg he] at h
      rcases ih d₀ i₀ d i h with
        ⟨hd, hi, hall⟩ | ⟨hi, hii, l₁, l₂, hsplit, hl₁, hl₂⟩
      · left
        exact ⟨hd, hi, by simpa [List.filter_cons, he] using hall⟩
      · right
        exact ⟨hi, hii, l₁, l₂, by simp [List.filter_cons, he, hsplit], hl₁, hl₂⟩

/-- Started from the empty accumulator (minInterest = Infinity in the
source), the fold's result is the first kept candidate achieving the
minimum total interest: all earlier kept candidates are strictly worse,
all later ones no better. -/
lemma bestFold_none_inv (P a ty : ℚ) :
    ∀ (ds : List ℕ) (d : ℕ) (i : ℚ),
      bestFold P a ty ds none = some (d, i) →
      i = durationInterest P a d ∧
      ∃ l₁ l₂, ds.filter (fun x : ℕ => (x:ℚ) ≤ ty) = l₁ ++ d :: l₂ ∧
        (∀ x ∈ l₁, i < durationInterest P a x) ∧
        (∀ x ∈ l₂, i ≤ durationInterest P a x) := by
  intro ds
  induction ds with
  | nil =>
    intro d i h
    simp [bestFold] at h
  | cons e rest ih =>
    intro d i h
    by_cases he : (e:ℚ) ≤ ty
    · simp only [bestFold, if_pos he] at h
      rcases bestFold_some_inv P a ty rest e (durationInterest P a e) d i h with
        ⟨hd, hi, hall⟩ | ⟨hi, hii, l₁, l₂, hsplit, hl₁, hl₂⟩
      · subst hd
        refine ⟨hi, [], rest.filter (fun x : ℕ => (x:ℚ) ≤ ty),
          by simp [List.filter_cons, he], by simp, ?_⟩
        intro x hx
        rw [hi]
        exact hall x hx
      · refine ⟨hi, e :: l₁, l₂, by simp [List.filter_cons, he, hsplit], ?_, hl₂⟩
        intro x hx
        rcases List.mem_cons.mp hx with rfl | hx1
        · exact hii
        · exact hl₁ x hx1
    · simp only [bestFold, if_neg he] at h
      obtain ⟨hi, l₁, l₂, hsplit, hl₁, hl₂⟩ := ih d i h
      exact ⟨hi, l₁, l₂, by simp [List.filter_cons, he, hsplit], hl₁, hl₂⟩

/-- C7: over a sorted (ascending) candidate list, the comparison engine
evaluates exactly the candidates ≤ the selected duration (the filter), the
winning interest equals EMI × totalMonths − principal for the winner, the
winner is the first kept candidate achieving the strict minimum of total
interest (earlier kept candidates are all strictly worse, later ones no
better), and every true tie is therefore won by the shortest duration. -/
theorem bestOption_minimal_interest (P a ty : ℚ) (ds : List ℕ)
    (hsorted : List.Sorted (· ≤ ·) ds) (d : ℕ) (i : ℚ)
    (h : bestOption P a ty ds = some (d, i)) :
    i = durationInterest P a d ∧
    durationInterest P a d = calculateEMI P a (12 * d) * ((12 * d : ℕ) : ℚ) - P ∧
    (∃ l₁ l₂, ds.filter (fun x : ℕ => (x:ℚ) ≤ ty) = l₁ ++ d :: l₂ ∧
      (∀ x ∈ l₁, i < durationInterest P a x) ∧
      (∀ x ∈ l₂, i ≤ durationInterest P a x)) ∧
    (∀ x ∈ ds.filter (fun x : ℕ => (x:ℚ) ≤ ty), durationInterest P a x = i → d ≤ x) := by
  obtain ⟨hi, l₁, l₂, hsplit, hl₁, hl₂⟩ := bestFold_none_inv P a ty ds d i h
  refine ⟨hi, ?_, ⟨l₁, l₂, hsplit, hl₁, hl₂⟩, ?_⟩
  · unfold durationInterest calculateTotalInterest
    push_cast
    ring
  · intro x hx hfx
    have hpair : (ds.filter (fun x : ℕ => (x:ℚ) ≤ ty)).Pairwise (· ≤ ·) :=
      List.Pairwise.filter _ hsorted
    rw [hsplit] at hpair hx
    rcases List.mem_append.mp hx with hx1 | hx2
    · exact absurd hfx (ne_of_gt (hl₁ x hx1))
    · rcases List.mem_cons.mp hx2 with rfl | hx3
      · exact le_refl _
      · have h2 := (List.pairwise_append.mp hpair).2.1
        exact (List.pairwise_cons.mp h2).1 x hx3

theorem bestOption_minimal_interest_witness :
    List.Sorted (· ≤ ·) [1] ∧ bestOption 12 0 1 [1] = some (1, 0) ∧
    ((0:ℚ) = durationInterest 12 0 1 ∧
      durationInterest 12 0 1 = calculateEMI 12 0 (12 * 1) * ((12 * 1 : ℕ) : ℚ) - 12 ∧
      (∃ l₁ l₂, [1].filter (fun x : ℕ => (x:ℚ) ≤ 1) = l₁ ++ 1 :: l₂ ∧
        (∀ x ∈ l₁, (0:ℚ) < durationInterest 12 0 x) ∧
        (∀ x ∈ l₂, (0:ℚ) ≤ durationInterest 12 0 x)) ∧
      (∀ x ∈ [1].filter (fun x : ℕ => (x:ℚ) ≤ 1), durationInterest 12 0 x = 0 → 1 ≤ x)) := by
  have hsorted : List.Sorted (· ≤ ·) [1] := by simp
  have hfold : bestOption 12 0 1 [1] = some (1, 0) := by
    norm_num [bestOption, bestFold, durationInterest, calculateTotalInterest, calculateEMI]
  exact ⟨hsorted, hfold,
    bestOption_minimal_interest 12 0 1 [1] hsorted 1 0 hfold⟩

end LoanCalc
